import Mathlib

/-!
Verification of the JAC dynamic EIT solver (`pyeit/eit/jac.py`).

The file gives a shallow embedding of the numerical core of `jac.py`:
the pseudo-inverse builder `h_matrix`, the difference solves `solve` and
`solve_gs` of class `JAC`, the Gauss-Newton loop `gn`, and the spatial
adjacency matrix `sar`.  Matrices are Mathlib matrices over an abstract
commutative ring with an inverse operation (instantiated at ℚ for
real-valued data and at the Gaussian rationals `GQ` for complex-valued
data); numpy floats are modelled exactly by rationals, which is faithful
for the dyadic constants appearing in the scenarios below.
-/

namespace PyEIT

/-- Gaussian rationals ℚ(i): a computable stand-in for numpy's complex
numbers, carrying the conjugation that `ndarray.conjugate()` performs. -/
structure GQ where
  re : ℚ
  im : ℚ
deriving DecidableEq

namespace GQ

instance : Zero GQ := ⟨⟨0, 0⟩⟩

instance : One GQ := ⟨⟨1, 0⟩⟩

instance : Add GQ := ⟨fun a b => ⟨a.re + b.re, a.im + b.im⟩⟩

instance : Neg GQ := ⟨fun a => ⟨-a.re, -a.im⟩⟩

instance : Mul GQ := ⟨fun a b => ⟨a.re * b.re - a.im * b.im, a.re * b.im + a.im * b.re⟩⟩

instance : Inv GQ := ⟨fun a => ⟨a.re / (a.re ^ 2 + a.im ^ 2), -a.im / (a.re ^ 2 + a.im ^ 2)⟩⟩

instance : CommRing GQ where
  add := (· + ·)
  zero := 0
  one := 1
  mul := (· * ·)
  neg := (- ·)
  nsmul := nsmulRec
  zsmul := zsmulRec
  add_assoc := fun ⟨a, b⟩ ⟨c, d⟩ ⟨e, f⟩ => by
    show GQ.mk (a + c + e) (b + d + f) = GQ.mk (a + (c + e)) (b + (d + f))
    simp only [GQ.mk.injEq]; constructor <;> ring
  zero_add := fun ⟨a, b⟩ => by
    show GQ.mk (0 + a) (0 + b) = GQ.mk a b
    simp only [GQ.mk.injEq]; constructor <;> ring
  add_zero := fun ⟨a, b⟩ => by
    show GQ.mk (a + 0) (b + 0) = GQ.mk a b
    simp only [GQ.mk.injEq]; constructor <;> ring
  add_comm := fun ⟨a, b⟩ ⟨c, d⟩ => by
    show GQ.mk (a + c) (b + d) = GQ.mk (c + a) (d + b)
    simp only [GQ.mk.injEq]; constructor <;> ring
  left_distrib := fun ⟨a, b⟩ ⟨c, d⟩ ⟨e, f⟩ => by
    show GQ.mk (a * (c + e) - b * (d + f)) (a * (d + f) + b * (c + e))
        = GQ.mk (a * c - b * d + (a * e - b * f)) (a * d + b * c + (a * f + b * e))
    simp only [GQ.mk.injEq]; constructor <;> ring
  right_distrib := fun ⟨a, b⟩ ⟨c, d⟩ ⟨e, f⟩ => by
    show GQ.mk ((a + c) * e - (b + d) * f) ((a + c) * f + (b + d) * e)
        = GQ.mk (a * e - b * f + (c * e - d * f)) (a * f + b * e + (c * f + d * e))
    simp only [GQ.mk.injEq]; constructor <;> ring
  zero_mul := fun ⟨a, b⟩ => by
    show GQ.mk (0 * a - 0 * b) (0 * b + 0 * a) = GQ.mk 0 0
    simp only [GQ.mk.injEq]; constructor <;> ring
  mul_zero := fun ⟨a, b⟩ => by
    show GQ.mk (a * 0 - b * 0) (a * 0 + b * 0) = GQ.mk 0 0
    simp only [GQ.mk.injEq]; constructor <;> ring
  mul_assoc := fun ⟨a, b⟩ ⟨c, d⟩ ⟨e, f⟩ => by
    show GQ.mk ((a * c - b * d) * e - (a * d + b * c) * f)
          ((a * c - b * d) * f + (a * d + b * c) * e)
        = GQ.mk (a * (c * e - d * f) - b * (c * f + d * e))
          (a * (c * f + d * e) + b * (c * e - d * f))
    simp only [GQ.mk.injEq]; constructor <;> ring
  one_mul := fun ⟨a, b⟩ => by
    show GQ.mk (1 * a - 0 * b) (1 * b + 0 * a) = GQ.mk a b
    simp only [GQ.mk.injEq]; constructor <;> ring
  mul_one := fun ⟨a, b⟩ => by
    show GQ.mk (a * 1 - b * 0) (a * 0 + b * 1) = GQ.mk a b
    simp only [GQ.mk.injEq]; constructor <;> ring
  neg_add_cancel := fun ⟨a, b⟩ => by
    show GQ.mk (-a + a) (-b + b) = GQ.mk 0 0
    simp only [GQ.mk.injEq]; constructor <;> ring
  mul_comm := fun ⟨a, b⟩ ⟨c, d⟩ => by
    show GQ.mk (a * c - b * d) (a * d + b * c) = GQ.mk (c * a - d * b) (c * b + d * a)
    simp only [GQ.mk.injEq]; constructor <;> ring

instance : StarRing GQ where
  star a := ⟨a.re, -a.im⟩
  star_involutive := fun ⟨a, b⟩ => by show GQ.mk a (- -b) = GQ.mk a b; simp
  star_mul := fun ⟨a, b⟩ ⟨c, d⟩ => by
    show GQ.mk (a * c - b * d) (-(a * d + b * c))
        = GQ.mk (c * a - (-d) * (-b)) (c * (-b) + (-d) * a)
    simp only [GQ.mk.injEq]; constructor <;> ring
  star_add := fun ⟨a, b⟩ ⟨c, d⟩ => by
    show GQ.mk (a + c) (-(b + d)) = GQ.mk (a + c) (-b + -d)
    simp only [GQ.mk.injEq]; constructor <;> ring

/-- the imaginary unit -/
def I : GQ := ⟨0, 1⟩

end GQ

variable {α : Type} [CommRing α] [StarRing α] [Inv α]

/-- model of `scipy.linalg.inv` (`la.inv`): the inverse of a square matrix,
written as `det⁻¹ • adjugate`.  When the determinant is invertible this is the
genuine two-sided inverse; `la.inv` raises `LinAlgError` on the remaining
(singular) inputs, which the claims below exclude by hypothesis. -/
def matInv {n : ℕ} (A : Matrix (Fin n) (Fin n) α) : Matrix (Fin n) (Fin n) α :=
  A.det⁻¹ • A.adjugate

/-- embedding of `h_matrix(jac, p, lamb, method)` from `pyeit/eit/jac.py`:
`j_w_j = np.dot(jac.transpose(), jac)` (the PLAIN transpose — numpy's
`.transpose()` does not conjugate), `r_mat = np.diag(np.diag(j_w_j) ** p)` when
`method is 'kotre'` and `np.eye(n)` otherwise, and the result
`np.dot(la.inv(j_w_j + lamb*r_mat), jac.transpose())`.  The float exponent `p`
is modelled as a natural exponent (the claims use `p = 0`, where numpy's
`x ** 0.0 = 1.0` for every `x` agrees with `x ^ (0 : ℕ) = 1`); the string
identity test `method is 'kotre'` is modelled as string equality, which is its
behavior on the interned literals `'kotre'`/`'lm'` and on every string unequal
to `'kotre'`. -/
def h_matrix {m n : ℕ} (jac : Matrix (Fin m) (Fin n) α) (p : ℕ) (lamb : α)
    (method : String) : Matrix (Fin n) (Fin m) α :=
  let j_w_j := jac.transpose * jac
  let r_mat := if method = "kotre"
    then Matrix.diagonal (fun i => j_w_j i i ^ p)
    else (1 : Matrix (Fin n) (Fin n) α)
  matInv (j_w_j + lamb • r_mat) * jac.transpose

/-- the specification's formula for the pseudo-inverse, stated for comparison
with `h_matrix`: G is the conjugate-transpose (Hermitian) product `Jᴴ·J`,
`R = diag(diag(G)^p)` for `kotre` and the identity for `lm`, and
`H = (G + lamb·R)⁻¹ · Jᴴ` with the conjugate transpose of `J` on the right. -/
def h_matrixSpec {m n : ℕ} (jac : Matrix (Fin m) (Fin n) α) (p : ℕ) (lamb : α)
    (method : String) : Matrix (Fin n) (Fin m) α :=
  let g := jac.conjTranspose * jac
  let r_mat := if method = "kotre"
    then Matrix.diagonal (fun i => g i i ^ p)
    else (1 : Matrix (Fin n) (Fin n) α)
  matInv (g + lamb • r_mat) * jac.conjTranspose

/-- embedding of `JAC.solve(v1, v0, normalize)`: `dv = -(v1 - v0)/v0` when
normalizing, `dv = v1 - v0` otherwise, and the result `-np.dot(H, dv)` where
`H` is the cached pseudo-inverse from setup.  Real-valued voltage data is
modelled over ℚ. -/
def solve {m n : ℕ} (H : Matrix (Fin n) (Fin m) ℚ) (v1 v0 : Fin m → ℚ)
    (normalize : Bool) : Fin n → ℚ :=
  let dv : Fin m → ℚ :=
    if normalize then (fun i => -(v1 i - v0 i) / v0 i) else (fun i => v1 i - v0 i)
  fun i => -(H.mulVec dv i)

/-- model of `np.dot` on two vectors: the (unconjugated) dot product. -/
def npdot {m : ℕ} (v w : Fin m → ℚ) : ℚ := ∑ i, v i * w i

/-- embedding of `JAC.solve_gs(v1, v0)`:
`a = np.dot(v1, v0) / np.dot(v0, v0)`, `dv = v1 - a*v0`, result
`-np.dot(H, dv)`. -/
def solve_gs {m n : ℕ} (H : Matrix (Fin n) (Fin m) ℚ) (v1 v0 : Fin m → ℚ) :
    Fin n → ℚ :=
  let a := npdot v1 v0 / npdot v0 v0
  let dv := fun i => v1 i - a * v0 i
  fun i => -(H.mulVec dv i)

/-- result of one call of the external forward model `self.fwd.solve(...)`:
simulated boundary voltages `fs.v` and a fresh Jacobian `fs.jac`. -/
structure ForwardSol (m n : ℕ) where
  v : Fin m → ℚ
  jac : Matrix (Fin m) (Fin n) ℚ

/-- the regularized matrix `h_mat = j_w_j + lamb*r_mat` formed inside one `gn`
iteration: `j_w_j = np.dot(jac.T.conjugate(), jac)` (here `gn`, unlike
`h_matrix`, DOES conjugate; on the real-valued data modelled here the
conjugation is the identity), with `r_mat = np.diag(np.diag(j_w_j) ** p)` when
`method is 'kotre'` and `np.eye(jac.shape[1])` otherwise. -/
def gnHmat {m n : ℕ} (jac : Matrix (Fin m) (Fin n) ℚ) (p : ℕ) (lamb : ℚ)
    (method : String) : Matrix (Fin n) (Fin n) ℚ :=
  let j_w_j := jac.conjTranspose * jac
  let r_mat := if method = "kotre"
    then Matrix.diagonal (fun i => j_w_j i i ^ p)
    else (1 : Matrix (Fin n) (Fin n) ℚ)
  j_w_j + lamb • r_mat

/-- one body execution of the `for i in range(maxiter)` loop of `JAC.gn`,
acting on the loop-carried state `(x0, lamb)`: call the forward model at `x0`,
form the residual `r0 = v - fs.v`, the gradient `j_r = jac.T.conjugate() @ r0`,
the regularized matrix `h_mat`, decay `lamb` when `lamb > lamb_min` (the decay
happens after `h_mat` is formed, so it affects only later iterations), solve
`h_mat d_k = j_r` and update `x0 ← x0 - d_k`. -/
def gnStep {m n : ℕ} (fwd : (Fin n → ℚ) → ForwardSol m n) (v : Fin m → ℚ)
    (p : ℕ) (lamb_decay lamb_min : ℚ) (method : String)
    (s : (Fin n → ℚ) × ℚ) : (Fin n → ℚ) × ℚ :=
  let x0 := s.1
  let lamb := s.2
  let fs := fwd x0
  let r0 := fun i => v i - fs.v i
  let j_r := fs.jac.conjTranspose.mulVec r0
  let h_mat := gnHmat fs.jac p lamb method
  let lamb' := if lamb_min < lamb then lamb * lamb_decay else lamb
  let d_k := (matInv h_mat).mulVec j_r
  (fun i => x0 i - d_k i, lamb')

/-- the `for i in range(maxiter)` loop of `JAC.gn`: `maxiter` sequential
applications of `gnStep` to the state `(x0, lamb)` (zero applications when
`maxiter = 0`, exactly as `range(0)` is empty). -/
def gnLoop {m n : ℕ} (fwd : (Fin n → ℚ) → ForwardSol m n) (v : Fin m → ℚ)
    (p : ℕ) (lamb_decay lamb_min : ℚ) (method : String) :
    ℕ → (Fin n → ℚ) × ℚ → (Fin n → ℚ) × ℚ
  | 0, s => s
  | k + 1, s =>
      gnLoop fwd v p lamb_decay lamb_min method k
        (gnStep fwd v p lamb_decay lamb_min method s)

/-- embedding of the body of `JAC.gn` after its `None`-argument resolution:
run the loop from `(x0, lamb)` and return the final estimate `x0`. -/
def gn {m n : ℕ} (fwd : (Fin n → ℚ) → ForwardSol m n) (v : Fin m → ℚ)
    (x0 : Fin n → ℚ) (maxiter : ℕ) (p : ℕ) (lamb lamb_decay lamb_min : ℚ)
    (method : String) : Fin n → ℚ :=
  (gnLoop fwd v p lamb_decay lamb_min method maxiter (x0, lamb)).1

/-- the solver parameters stored by `JAC.setup` in `self.params`. -/
structure JacParams where
  p : ℕ
  lamb : ℚ
  method : String

/-- the `self.params` dictionary written by `JAC.setup(p, lamb, method)`. -/
def setupParams (p : ℕ) (lamb : ℚ) (method : String) : JacParams :=
  ⟨p, lamb, method⟩

/-- the literal default of the `method` parameter in `JAC.gn`'s signature:
`method='kotre'` — a plain string, not `None`, so omitting the argument passes
`some "kotre"` rather than `none`. -/
def gnMethodDefault : Option String := some "kotre"

/-- embedding of a call of `JAC.gn` including its argument resolution
(`if x0 is None: x0 = self.perm`, `if p is None: p = self.params['p']`,
`if lamb is None: ...`, `if method is None: method = self.params['method']`):
`none` models passing `None`, `some a` models passing `a`. -/
def gnCall {m n : ℕ} (perm : Fin n → ℚ) (params : JacParams)
    (fwd : (Fin n → ℚ) → ForwardSol m n) (v : Fin m → ℚ)
    (x0opt : Option (Fin n → ℚ)) (maxiter : ℕ) (popt : Option ℕ)
    (lambopt : Option ℚ) (lamb_decay lamb_min : ℚ)
    (methodopt : Option String) : Fin n → ℚ :=
  gn fwd v (x0opt.getD perm) maxiter (popt.getD params.p)
    (lambopt.getD params.lamb) lamb_decay lamb_min
    (methodopt.getD params.method)

/-- element `j` shares at least one mesh node with element `i`.  In `sar`,
`np.argwhere(el2no == ei[k])[:, 0]` collects every element owning the node
`ei[k]`; the `np.unique(np.hstack(...))` of the three is exactly the set of
elements sharing some node with `i`. -/
def sharesNode {ne : ℕ} (el2no : Fin ne → Fin 3 → ℕ) (i j : Fin ne) : Prop :=
  ∃ a b, el2no i a = el2no j b

instance {ne : ℕ} (el2no : Fin ne → Fin 3 → ℕ) (i j : Fin ne) :
    Decidable (sharesNode el2no i j) :=
  inferInstanceAs (Decidable (∃ a b, el2no i a = el2no j b))

/-- the `idx` set of row `i` of `sar`: all elements (including `i` itself)
sharing a node with element `i`. -/
def nbrs {ne : ℕ} (el2no : Fin ne → Fin 3 → ℕ) (i : Fin ne) : Finset (Fin ne) :=
  Finset.univ.filter (fun j => sharesNode el2no i j)

/-- embedding of `sar(el2no)`.  The loop builds row `i` from row `i` of
`np.eye(ne)` by first writing `-1` at every position in `idx` and then
overwriting the diagonal entry with `nn = idx.size - 1`; each row is written
only during its own iteration, so the loop's final state is this closed form
(the trailing `np.eye` term survives exactly outside `idx`, and is `0` there
since its `i = j` branch is shadowed by the diagonal overwrite). -/
def sar {ne : ℕ} (el2no : Fin ne → Fin 3 → ℕ) : Matrix (Fin ne) (Fin ne) ℚ :=
  fun i j =>
    if j = i then ((nbrs el2no i).card : ℚ) - 1
    else if j ∈ nbrs el2no i then -1
    else (if i = j then (1 : ℚ) else 0)

/-- the 1×1 complex Jacobian `[[1j]]` used to separate the plain transpose of
the source from the conjugate transpose of the specification. -/
def jacImag : Matrix (Fin 1) (Fin 1) GQ := fun _ _ => GQ.I

/-- a concrete real-entried 1×2 Jacobian. -/
def jacReal : Matrix (Fin 1) (Fin 2) ℚ := !![1, 2]

/-- a concrete forward model on a 1-element mesh: simulated voltage `0`,
Jacobian `[[1]]`, independent of the estimate. -/
def fwdUnit : (Fin 1 → ℚ) → ForwardSol 1 1 := fun _ => ⟨fun _ => 0, fun _ _ => 1⟩

/-- a concrete forward model whose simulated voltage `5` can match a measured
vector exactly (zero residual), with Jacobian `[[1]]`. -/
def fwdMatch : (Fin 1 → ℚ) → ForwardSol 1 1 := fun _ => ⟨fun _ => 5, fun _ _ => 1⟩

/-- a concrete forward model with Jacobian `[[2]]`, on which the `kotre` and
`lm` regularizations produce different Gauss-Newton updates (for `p = 1`,
`diag(JᵗJ) = 4 ≠ 1`). -/
def fwdTwo : (Fin 1 → ℚ) → ForwardSol 1 1 := fun _ => ⟨fun _ => 0, fun _ _ => 2⟩

/-- the params dictionary stored by `setup(p=1, lamb=1, method='lm')`. -/
def paramsLM : JacParams := setupParams 1 1 "lm"

/-- a 3-element mesh in which all three elements share the single node `0`
and share no other node. -/
def el2noStar : Fin 3 → Fin 3 → ℕ := ![![0, 1, 2], ![0, 3, 4], ![0, 5, 6]]

theorem lm_ne_kotre : ("lm" : String) ≠ "kotre" := by decide

theorem gnHmat_of_ne_kotre {m n : ℕ} (jac : Matrix (Fin m) (Fin n) ℚ) (p : ℕ)
    (lamb : ℚ) {method : String} (h : method ≠ "kotre") :
    gnHmat jac p lamb method = gnHmat jac p lamb "lm" := by
  simp [gnHmat, if_neg h, if_neg lm_ne_kotre]

theorem gnStep_of_ne_kotre {m n : ℕ} (fwd : (Fin n → ℚ) → ForwardSol m n)
    (v : Fin m → ℚ) (p : ℕ) (lamb_decay lamb_min : ℚ) {method : String}
    (h : method ≠ "kotre") (s : (Fin n → ℚ) × ℚ) :
    gnStep fwd v p lamb_decay lamb_min method s
      = gnStep fwd v p lamb_decay lamb_min "lm" s := by
  simp [gnStep, gnHmat_of_ne_kotre _ _ _ h]

theorem gnLoop_of_ne_kotre {m n : ℕ} (fwd : (Fin n → ℚ) → ForwardSol m n)
    (v : Fin m → ℚ) (p : ℕ) (lamb_decay lamb_min : ℚ) {method : String}
    (h : method ≠ "kotre") (k : ℕ) (s : (Fin n → ℚ) × ℚ) :
    gnLoop fwd v p lamb_decay lamb_min method k s
      = gnLoop fwd v p lamb_decay lamb_min "lm" k s := by
  induction k generalizing s with
  | zero => rfl
  | succ k ih =>
      rw [gnLoop, gnLoop, gnStep_of_ne_kotre _ _ _ _ _ h]
      exact ih _

/-- C6: for every Jacobian over ℚ and every `lamb > 0`, `h_matrix` with
`p = 0` and method `kotre` returns exactly the matrix returned by method `lm`
with the same Jacobian and `lamb`: every diagonal entry of `JᵗJ` raised to the
power `0` equals `1`, so the `kotre` regularization matrix collapses to the
identity used by `lm`. -/
theorem h_matrix_kotre_p_zero_eq_lm {m n : ℕ} (jac : Matrix (Fin m) (Fin n) ℚ)
    (lamb : ℚ) (p' : ℕ) (hl : 0 < lamb) :
    h_matrix jac 0 lamb "kotre" = h_matrix jac p' lamb "lm" := by
  simp [h_matrix, if_pos rfl, if_neg lm_ne_kotre, pow_zero, Matrix.diagonal_one]

/-- witness for `h_matrix_kotre_p_zero_eq_lm` at `J = I₂`, `lamb = 1`,
`p' = 5`. -/
theorem h_matrix_kotre_p_zero_eq_lm_witness :
    (0 : ℚ) < 1 ∧
    h_matrix (1 : Matrix (Fin 2) (Fin 2) ℚ) 0 1 "kotre"
      = h_matrix (1 : Matrix (Fin 2) (Fin 2) ℚ) 5 1 "lm" :=
  ⟨by norm_num, h_matrix_kotre_p_zero_eq_lm 1 1 5 (by norm_num)⟩

/-- C4: in a `gn` call with `maxiter = 3`, initial `lamb = 1`,
`lamb_decay = 1/2` and `lamb_min = 1/10`, the `lamb` component of the
loop-carried state entering iterations 0, 1 and 2 — the value from which each
iteration's `h_mat` is formed, since `gnStep` builds `h_mat` before decaying —
is exactly `1`, `1/2` and `1/4`, for every forward model, measurement, start
estimate, `p` and method. -/
theorem gn_lamb_decay_sequence {m n : ℕ} (fwd : (Fin n → ℚ) → ForwardSol m n)
    (v : Fin m → ℚ) (x0 : Fin n → ℚ) (p : ℕ) (method : String) :
    (gnLoop fwd v p (1/2) (1/10) method 0 (x0, 1)).2 = 1 ∧
    (gnLoop fwd v p (1/2) (1/10) method 1 (x0, 1)).2 = 1/2 ∧
    (gnLoop fwd v p (1/2) (1/10) method 2 (x0, 1)).2 = 1/4 := by
  refine ⟨rfl, ?_, ?_⟩ <;> · simp [gnLoop, gnStep]; norm_num

/-- C3 counterexample: with `maxiter = 0` the Gauss-Newton loop body never
executes — Python's `range(0)` is empty — so `gn` returns `x0` unchanged, even
on an input where a single body execution (`maxiter = 1`, same arguments)
moves the estimate.  This refutes the claim that the body runs at least once
for every `maxiter` including `0`. -/
theorem gn_maxiter_zero_runs_no_iteration :
    gn fwdUnit (fun _ => 1) (fun _ => 0) 0 0 1 1 0 "lm" = (fun _ => 0) ∧
    gn fwdUnit (fun _ => 1) (fun _ => 0) 1 0 1 1 0 "lm" ≠ (fun _ => 0) := by
  constructor
  · rfl
  · intro h
    have h0 := congrFun h 0
    simp [gn, gnLoop, gnStep, gnHmat, fwdUnit, matInv, Matrix.det_fin_one,
      Matrix.adjugate_fin_one, Matrix.mulVec, Matrix.dotProduct,
      Matrix.conjTranspose_apply, Matrix.mul_apply, Matrix.smul_apply,
      Matrix.one_apply, Matrix.transpose_apply, Fin.sum_univ_one,
      if_neg lm_ne_kotre] at h0

/-- C3 amended: the Gauss-Newton loop executes exactly `maxiter` sequential
body steps with no convergence-based early exit — zero steps when
`maxiter = 0`, and running `a + b` iterations equals running `a` iterations
and then `b` more from the resulting state, for every forward model and
parameter set. -/
theorem gnLoop_fixed_iteration_count {m n : ℕ}
    (fwd : (Fin n → ℚ) → ForwardSol m n) (v : Fin m → ℚ) (p : ℕ)
    (lamb_decay lamb_min : ℚ) (method : String) (a b : ℕ)
    (s : (Fin n → ℚ) × ℚ) :
    gnLoop fwd v p lamb_decay lamb_min method 0 s = s ∧
    gnLoop fwd v p lamb_decay lamb_min method (a + b) s
      = gnLoop fwd v p lamb_decay lamb_min method b
          (gnLoop fwd v p lamb_decay lamb_min method a s) := by
  refine ⟨rfl, ?_⟩
  induction a generalizing s with
  | zero => rw [Nat.zero_add]; rfl
  | succ k ih =>
      rw [Nat.succ_add]
      exact ih (gnStep fwd v p lamb_decay lamb_min method s)

/-- C2 counterexample: the source contains no `raise` statement at all; the
method dispatch is a two-way `if method is 'kotre': ... else: ...`, so the
unknown method value `'foo'` is not rejected: `h_matrix` and `gn` both return
normally with exactly the `lm` (identity-regularization) result instead of
failing with a ConfigurationError. -/
theorem unknown_method_silently_handled :
    h_matrix (1 : Matrix (Fin 1) (Fin 1) ℚ) 0 1 "foo"
      = h_matrix (1 : Matrix (Fin 1) (Fin 1) ℚ) 0 1 "lm" ∧
    gn fwdUnit (fun _ => 1) (fun _ => 0) 1 0 1 1 0 "foo"
      = gn fwdUnit (fun _ => 1) (fun _ => 0) 1 0 1 1 0 "lm" := by
  constructor
  · simp [h_matrix, if_neg (by decide : ¬("foo" = "kotre")), if_neg lm_ne_kotre]
  · simp [gn, gnLoop,
      gnStep_of_ne_kotre _ _ _ _ _ (by decide : ("foo" : String) ≠ "kotre")]

/-- C2 amended: for every method value other than `'kotre'` — in particular
for every unknown method — both `h_matrix` and the Gauss-Newton solver
silently take the `else` branch and behave exactly as method `lm`; no
ConfigurationError (or any other failure) is raised. -/
theorem unknown_method_behaves_as_lm {m n : ℕ}
    (jac : Matrix (Fin m) (Fin n) ℚ) (p : ℕ) (lamb : ℚ)
    (fwd : (Fin n → ℚ) → ForwardSol m n) (v : Fin m → ℚ) (x0 : Fin n → ℚ)
    (maxiter : ℕ) (lamb_decay lamb_min : ℚ) {method : String}
    (h : method ≠ "kotre") :
    h_matrix jac p lamb method = h_matrix jac p lamb "lm" ∧
    gn fwd v x0 maxiter p lamb lamb_decay lamb_min method
      = gn fwd v x0 maxiter p lamb lamb_decay lamb_min "lm" := by
  constructor
  · simp [h_matrix, if_neg h, if_neg lm_ne_kotre]
  · simp [gn, gnLoop_of_ne_kotre _ _ _ _ _ h]

/-- witness for `unknown_method_behaves_as_lm` at `method = 'bar'` with a 1×1
identity Jacobian and the constant forward model. -/
theorem unknown_method_behaves_as_lm_witness :
    ("bar" : String) ≠ "kotre" ∧
    (h_matrix (1 : Matrix (Fin 1) (Fin 1) ℚ) 2 1 "bar"
        = h_matrix (1 : Matrix (Fin 1) (Fin 1) ℚ) 2 1 "lm" ∧
      gn fwdUnit (fun _ => 1) (fun _ => 0) 2 2 1 1 0 "bar"
        = gn fwdUnit (fun _ => 1) (fun _ => 0) 2 2 1 1 0 "lm") :=
  ⟨by decide, unknown_method_behaves_as_lm 1 2 1 fwdUnit (fun _ => 1)
    (fun _ => 0) 2 1 0 (by decide)⟩

/-- C5: in a `gn` call with `maxiter = 1` whose forward model reproduces the
measured voltages exactly (`fs.v = v`, zero residual), with the regularized
matrix `h_mat` of that iteration nonsingular, the update direction solves to
the zero vector and `gn` returns the initial estimate `x0` unchanged. -/
theorem gn_zero_residual_fixed_point {m n : ℕ}
    (fwd : (Fin n → ℚ) → ForwardSol m n) (v : Fin m → ℚ) (x0 : Fin n → ℚ)
    (p : ℕ) (lamb lamb_decay lamb_min : ℚ) (method : String)
    (hv : (fwd x0).v = v)
    (hdet : (gnHmat (fwd x0).jac p lamb method).det ≠ 0) :
    gn fwd v x0 1 p lamb lamb_decay lamb_min method = x0 := by
  have h0 : (fun i => v i - (fwd x0).v i) = (0 : Fin m → ℚ) := by
    funext i; rw [hv]; simp
  simp [gn, gnLoop, gnStep, h0, Matrix.mulVec_zero]

/-- witness for `gn_zero_residual_fixed_point`: `fwdMatch` returns exactly the
measured voltage `5`, its 1×1 regularized matrix `[[2]]` is nonsingular, and
`gn` leaves the start estimate `3` unchanged. -/
theorem gn_zero_residual_fixed_point_witness :
    (fwdMatch (fun _ => 3)).v = (fun _ => (5 : ℚ)) ∧
    (gnHmat (fwdMatch (fun _ => 3)).jac 0 1 "lm").det ≠ 0 ∧
    gn fwdMatch (fun _ => 5) (fun _ => 3) 1 0 1 1 0 "lm" = (fun _ => 3) := by
  have hd : (gnHmat (fwdMatch (fun _ => 3)).jac 0 1 "lm").det ≠ 0 := by
    simp [gnHmat, fwdMatch, if_neg lm_ne_kotre, Matrix.det_fin_one,
      Matrix.add_apply, Matrix.mul_apply, Matrix.conjTranspose_apply,
      Matrix.smul_apply, Matrix.one_apply, Fin.sum_univ_one]
  exact ⟨rfl, hd, gn_zero_residual_fixed_point fwdMatch (fun _ => 5)
    (fun _ => 3) 0 1 1 0 "lm" rfl hd⟩

/-- C7: for every nonzero reference vector `v0` over ℚ and every nonzero
scalar `c`, `solve_gs(c*v0, v0)` returns the zero vector: the fitted gain
`a = (v1·v0)/(v0·v0)` recovers `c` exactly, so `dv = v1 - a*v0` vanishes and
`-H·dv = 0`. -/
theorem solve_gs_recovers_gain {m n : ℕ} (H : Matrix (Fin n) (Fin m) ℚ)
    (v0 : Fin m → ℚ) (c : ℚ) (hv : v0 ≠ 0) (hc : c ≠ 0) :
    solve_gs H (fun i => c * v0 i) v0 = 0 := by
  obtain ⟨a0, ha0⟩ := Function.ne_iff.mp hv
  have hd : npdot v0 v0 ≠ 0 := by
    have hp : 0 < npdot v0 v0 :=
      Finset.sum_pos' (fun i _ => mul_self_nonneg (v0 i))
        ⟨a0, Finset.mem_univ a0, mul_self_pos.mpr ha0⟩
    exact ne_of_gt hp
  have hgain : npdot (fun i => c * v0 i) v0 / npdot v0 v0 = c := by
    have ha : npdot (fun i => c * v0 i) v0 = c * npdot v0 v0 := by
      simp [npdot, Finset.mul_sum, mul_assoc]
    rw [ha, mul_div_assoc, div_self hd, mul_one]
  have h0 : (fun i => c * v0 i - c * v0 i) = (0 : Fin m → ℚ) := by
    funext i; simp
  simp only [solve_gs, hgain, h0, Matrix.mulVec_zero]
  funext i
  simp

/-- witness for `solve_gs_recovers_gain` at `H = [[1]]`, `v0 = [1]`,
`c = 2`. -/
theorem solve_gs_recovers_gain_witness :
    ((fun _ => 1) : Fin 1 → ℚ) ≠ 0 ∧ (2 : ℚ) ≠ 0 ∧
    solve_gs (1 : Matrix (Fin 1) (Fin 1) ℚ)
      (fun i => 2 * ((fun _ => 1) : Fin 1 → ℚ) i) (fun _ => 1) = 0 := by
  have hv : ((fun _ => 1) : Fin 1 → ℚ) ≠ 0 := by
    intro h
    exact absurd (congrFun h 0) (by norm_num)
  exact ⟨hv, by norm_num,
    solve_gs_recovers_gain 1 (fun _ => 1) 2 hv (by norm_num)⟩

/-- C8: with `J` the 2×2 identity over ℚ, `p = 0`, `lamb = 1` and method
`lm`, `h_matrix` returns one half times the 2×2 identity (`JᵗJ = I`, `R = I`,
`(I + I)⁻¹·I = 0.5·I`), and the subsequent difference solve with
`v1 = [2, 0]`, `v0 = [0, 0]` and `normalize = false` returns exactly
`[-1, 0]`. -/
theorem h_matrix_identity_end_to_end :
    h_matrix (1 : Matrix (Fin 2) (Fin 2) ℚ) 0 1 "lm"
      = (1/2 : ℚ) • (1 : Matrix (Fin 2) (Fin 2) ℚ) ∧
    solve (h_matrix (1 : Matrix (Fin 2) (Fin 2) ℚ) 0 1 "lm") ![2, 0] ![0, 0]
      false = ![-1, 0] := by
  have h1 : h_matrix (1 : Matrix (Fin 2) (Fin 2) ℚ) 0 1 "lm"
      = (1/2 : ℚ) • (1 : Matrix (Fin 2) (Fin 2) ℚ) := by
    ext i j
    fin_cases i <;> fin_cases j <;>
      simp [h_matrix, matInv, if_neg lm_ne_kotre, Matrix.transpose_one,
        Matrix.mul_one, Matrix.one_mul, one_smul, Matrix.det_fin_two,
        Matrix.adjugate_fin_two, Matrix.add_apply, Matrix.one_apply,
        Matrix.smul_apply, Matrix.mul_apply, Fin.sum_univ_two,
        Matrix.of_apply, Matrix.cons_val_zero, Matrix.cons_val_one,
        Matrix.head_cons] <;> norm_num
  refine ⟨h1, ?_⟩
  rw [h1]
  funext i
  fin_cases i <;>
    simp [solve, Matrix.mulVec, Matrix.dotProduct, Matrix.smul_apply,
      Matrix.one_apply, Fin.sum_univ_two, Matrix.cons_val_zero,
      Matrix.cons_val_one, Matrix.head_cons]

theorem self_mem_nbrs {ne : ℕ} (el2no : Fin ne → Fin 3 → ℕ) (i : Fin ne) :
    i ∈ nbrs el2no i := by
  simp only [nbrs, Finset.mem_filter, Finset.mem_univ, true_and]
  exact ⟨0, 0, rfl⟩

theorem nbrs_erase_eq {ne : ℕ} (el2no : Fin ne → Fin 3 → ℕ) (i : Fin ne) :
    (nbrs el2no i).erase i
      = Finset.univ.filter (fun k => k ≠ i ∧ sharesNode el2no i k) := by
  ext j
  simp [nbrs, Finset.mem_erase]

/-- C9: for every element-to-node connectivity array `el2no` and every pair of
elements `i`, `j`, the matrix `D = sar el2no` satisfies: `D i i` equals the
number of distinct elements other than `i` sharing at least one node with `i`;
`D i j = -1` for every such neighbor `j ≠ i`; `D i j = 0` for every
non-neighbor `j ≠ i`; and row `i` of `D` sums to zero. -/
theorem sar_adjacency_rows {ne : ℕ} (el2no : Fin ne → Fin 3 → ℕ)
    (i j : Fin ne) :
    sar el2no i i
      = ((Finset.univ.filter
          (fun k => k ≠ i ∧ sharesNode el2no i k)).card : ℚ) ∧
    (j ≠ i → sharesNode el2no i j → sar el2no i j = -1) ∧
    (j ≠ i → ¬sharesNode el2no i j → sar el2no i j = 0) ∧
    ∑ k, sar el2no i k = 0 := by
  have hmem := self_mem_nbrs el2no i
  have hpos : 1 ≤ (nbrs el2no i).card := Finset.card_pos.mpr ⟨i, hmem⟩
  have hcard : (Finset.univ.filter
      (fun k => k ≠ i ∧ sharesNode el2no i k)).card
        = (nbrs el2no i).card - 1 := by
    rw [← nbrs_erase_eq, Finset.card_erase_of_mem hmem]
  have hdiag : sar el2no i i = ((nbrs el2no i).card : ℚ) - 1 := by
    simp [sar]
  refine ⟨?_, ?_, ?_, ?_⟩
  · rw [hcard, Nat.cast_sub hpos, hdiag, Nat.cast_one]
  · intro hji hsh
    simp [sar, hji, nbrs, hsh]
  · intro hji hsh
    simp [sar, hji, nbrs, hsh, Ne.symm hji]
  · have hterm : ∀ k ∈ Finset.univ.erase i,
        sar el2no i k = if k ∈ nbrs el2no i then (-1 : ℚ) else 0 := by
      intro k hk
      have hki : k ≠ i := (Finset.mem_erase.mp hk).1
      by_cases hm : k ∈ nbrs el2no i
      · simp [sar, hki, hm]
      · simp [sar, hki, hm, Ne.symm hki]
    have hinter : Finset.univ.erase i ∩ nbrs el2no i = (nbrs el2no i).erase i := by
      ext k
      simp [Finset.mem_erase, Finset.mem_inter, and_comm]
    have hsum2 : ∑ k ∈ Finset.univ.erase i, sar el2no i k
        = -(((nbrs el2no i).card : ℚ) - 1) := by
      rw [Finset.sum_congr rfl hterm, Finset.sum_ite_mem, hinter,
        Finset.sum_const, Finset.card_erase_of_mem hmem, nsmul_eq_mul,
        Nat.cast_sub hpos, Nat.cast_one]
      ring
    rw [← Finset.add_sum_erase _ _ (Finset.mem_univ i), hdiag, hsum2]
    ring

/-- witness for `sar_adjacency_rows` on the 3-element mesh `el2noStar` whose
elements all share node `0`: element `1` is a distinct neighbor of element
`0`, and its off-diagonal entry is `-1`. -/
theorem sar_adjacency_rows_witness :
    ((1 : Fin 3) ≠ 0 ∧ sharesNode el2noStar 0 1) ∧
    sar el2noStar 0 1 = -1 := by
  have h1 : (1 : Fin 3) ≠ 0 := by decide
  have h2 : sharesNode el2noStar 0 1 := by decide
  exact ⟨⟨h1, h2⟩, (sar_adjacency_rows el2noStar 0 1).2.1 h1 h2⟩

/-- C10: a `gn` call that omits the method argument uses the literal default
`'kotre'` regardless of the method configured in `setup`: with the stored
params of `setup(method='lm')`, the omitted-argument default resolves to
`'kotre'` (the configured method is consulted only when the caller explicitly
passes `method=None`, which resolves to `'lm'`), the call equals a plain
`kotre` run, and it differs observably from the `method=None` call. -/
theorem gn_default_method_overrides_setup :
    gnMethodDefault.getD paramsLM.method = "kotre" ∧
    Option.getD (none : Option String) paramsLM.method = "lm" ∧
    gnCall (fun _ => 0) paramsLM fwdTwo (fun _ => 1) none 1 none none 1 0
        gnMethodDefault
      = gn fwdTwo (fun _ => 1) (fun _ => 0) 1 1 1 1 0 "kotre" ∧
    gnCall (fun _ => 0) paramsLM fwdTwo (fun _ => 1) none 1 none none 1 0
        gnMethodDefault
      ≠ gnCall (fun _ => 0) paramsLM fwdTwo (fun _ => 1) none 1 none none 1 0
        none := by
  refine ⟨rfl, rfl, rfl, ?_⟩
  intro h
  have h0 := congrFun h 0
  simp [gnCall, gn, gnLoop, gnStep, gnHmat, fwdTwo, paramsLM, setupParams,
    matInv, gnMethodDefault, Matrix.det_fin_one, Matrix.adjugate_fin_one,
    Matrix.mulVec, Matrix.dotProduct, Matrix.conjTranspose_apply,
    Matrix.mul_apply, Matrix.smul_apply, Matrix.one_apply,
    Matrix.diagonal_apply_eq, Matrix.transpose_apply, Fin.sum_univ_one,
    if_neg lm_ne_kotre] at h0
  norm_num at h0

/-- C1 amended: `h_matrix` computes `G = Jᵀ·J` with numpy's PLAIN transpose —
no conjugation — and returns `(G + lamb·R)⁻¹ · Jᵀ`, where `R = diag(diag(G)^p)`
for method `kotre` and the identity for any other method.  This agrees with
the claim's conjugate-transpose (Hermitian) formula exactly when every entry
of `J` is star-fixed (real-valued); on complex Jacobians the two formulas
diverge (`h_matrix_conjugation_diverges`). -/
theorem h_matrix_eq_hermitian_on_real_entries {m n : ℕ}
    (jac : Matrix (Fin m) (Fin n) α) (p : ℕ) (lamb : α) (method : String)
    (h : ∀ i j, star (jac i j) = jac i j) :
    h_matrix jac p lamb method = h_matrixSpec jac p lamb method := by
  have ht : jac.conjTranspose = jac.transpose := by
    ext i j
    simp [Matrix.conjTranspose_apply, Matrix.transpose_apply, h]
  simp [h_matrix, h_matrixSpec, ht]

/-- witness for `h_matrix_eq_hermitian_on_real_entries` at the real Jacobian
`[[1, 2]]` over ℚ, where the star hypothesis holds trivially. -/
theorem h_matrix_eq_hermitian_on_real_entries_witness :
    (∀ i j, star (jacReal i j) = jacReal i j) ∧
    h_matrix jacReal 0 1 "kotre" = h_matrixSpec jacReal 0 1 "kotre" :=
  ⟨fun _ _ => star_trivial _,
    h_matrix_eq_hermitian_on_real_entries jacReal 0 1 "kotre"
      (fun _ _ => star_trivial _)⟩

theorem GQ.add_def (a b : GQ) : a + b = ⟨a.re + b.re, a.im + b.im⟩ := rfl

theorem GQ.mul_def (a b : GQ) :
    a * b = ⟨a.re * b.re - a.im * b.im, a.re * b.im + a.im * b.re⟩ := rfl

theorem GQ.inv_def (a : GQ) :
    a⁻¹ = ⟨a.re / (a.re ^ 2 + a.im ^ 2), -a.im / (a.re ^ 2 + a.im ^ 2)⟩ := rfl

theorem GQ.star_def (a : GQ) : star a = ⟨a.re, -a.im⟩ := rfl

/-- C1 counterexample: at the complex 1×1 Jacobian `[[i]]` (over the Gaussian
rationals) with `p = 0`, `lamb = 3` and method `lm`, the source's
plain-transpose computation gives `JᵀJ = [[i·i]] = [[-1]]` and
`H = [[(−1+3)⁻¹ · i]] = [[i/2]]`, while the claim's conjugate-transpose
formula gives `JᴴJ = [[1]]` and `H = [[−i/4]]`: `h_matrix` does not form the
Hermitian product, so the claim fails on complex Jacobians. -/
theorem h_matrix_conjugation_diverges :
    h_matrix jacImag 0 ⟨3, 0⟩ "lm" ≠ h_matrixSpec jacImag 0 ⟨3, 0⟩ "lm" := by
  intro h
  have h0 := congrFun (congrFun h 0) 0
  simp [h_matrix, h_matrixSpec, matInv, jacImag, GQ.I, if_neg lm_ne_kotre,
    Matrix.det_fin_one, Matrix.adjugate_fin_one, Matrix.mul_apply,
    Matrix.smul_apply, Matrix.transpose_apply, Matrix.conjTranspose_apply,
    Matrix.one_apply, Fin.sum_univ_one] at h0
  norm_num [GQ.mul_def, GQ.add_def, GQ.inv_def, GQ.star_def,
    GQ.mk.injEq] at h0

end PyEIT
